import Mathlib

/-!
Verification of the rollup-sequencer core against its specification.

The development shallowly embeds the Rust source:
* `crates/types/src/lib.rs`   — transactions, blocks, Merkle root / proof / verification;
* `crates/mempool/src/lib.rs` — `SimpleMempool` (`insert`, `get_batch`);
* `crates/storage/src/lib.rs` — `InMemoryStorage` and `SledStorage` state-root stores;
* `crates/consensus/src/lib.rs` — the step-driven `SingleNodeConsensus` engine.

Machine integers (`u64`, `u32`, `usize`) are embedded as `Nat`: none of the verified
operations perform wrapping arithmetic (heights, views and lengths only ever grow by 1
from 0, far below `2^64`, and Merkle indices are bounded by list lengths).  The BLAKE3
hash `hash_bytes` cannot be reproduced in the embedding, so the 32-byte `Hash` is an
abstract type with decidable equality and the two uses of hashing are abstracted by
parameters:
* `combine l r` models `hash_bytes(l.0 ‖ r.0)`, the Merkle pair hash of the source
  (`merkle_root` / `merkle_proof` / `verify_merkle_proof` use `hash_bytes` only on the
  64-byte concatenation of two node hashes);
* `zeroHash` models `Hash([0u8; 32])`;
* `txIdOf` models `Transaction::id` (bincode encoding followed by `hash_bytes`);
* `headerId` models `BlockHeader::id` (bincode encoding followed by `hash_bytes`).
Every theorem below is uniform in these parameters, and witnesses instantiate them
with concrete executable values.

Rust `HashMap`s are modelled as association lists (`mapLookup` / `mapInsert`); sled
trees, which iterate in key order, are modelled as key-sorted association lists.
-/

/-- `Hash([0u8;32])`, `TxId`, `BlockId` wrappers from `crates/types`.  `Hash` itself is
the abstract type parameter. -/
structure TxId (Hash : Type) where
  hash : Hash
deriving DecidableEq, Repr

structure BlockId (Hash : Type) where
  hash : Hash
deriving DecidableEq, Repr

/-- `Transaction` from `crates/types`: namespace, gas price, nonce, opaque payload and
signature bytes (bytes as `Nat` lists). -/
structure Transaction where
  «namespace» : Nat
  gas_price : Nat
  nonce : Nat
  payload : List Nat
  signature : List Nat
deriving DecidableEq, Repr

/-- `BlockHeader` from `crates/types`.  `proposer` is a 32-byte array in the source,
modelled by the abstract `Hash` type (an opaque 32-byte value). -/
structure BlockHeader (Hash : Type) where
  height : Nat
  parent : Option (BlockId Hash)
  tx_root : Hash
  state_root : Hash
  timestamp_ms : Nat
  proposer : Hash
deriving DecidableEq, Repr

/-- `Block` from `crates/types`: header plus the ordered list of transaction ids. -/
structure Block (Hash : Type) where
  header : BlockHeader Hash
  txs : List (TxId Hash)
deriving DecidableEq, Repr

/-- `MerkleProof` from `crates/types`: leaf index and bottom-up sibling hashes. -/
structure MerkleProof (Hash : Type) where
  index : Nat
  siblings : List Hash
deriving DecidableEq, Repr

section Merkle

variable {Hash : Type}

/-- One round of the `while layer.len() > 1` loop body shared by `merkle_root` and
`merkle_proof`: `layer.chunks(2)` hashed pairwise, a trailing singleton chunk being
paired with itself. -/
def nextLayer (combine : Hash → Hash → Hash) : List Hash → List Hash
  | [] => []
  | [a] => [combine a a]
  | a :: b :: rest => combine a b :: nextLayer combine rest

theorem nextLayer_length (combine : Hash → Hash → Hash) :
    ∀ l : List Hash, (nextLayer combine l).length = (l.length + 1) / 2
  | [] => by simp [nextLayer]
  | [_] => by simp [nextLayer]
  | _ :: _ :: rest => by
    simp only [nextLayer, List.length_cons, nextLayer_length combine rest]
    omega

/-- The `while layer.len() > 1 { layer = next }` loop of `merkle_root`, returning
`layer[0]`.  The empty case is unreachable from `merkle_root` (guarded by the
emptiness check); it returns the zero hash. -/
def rootLoop (combine : Hash → Hash → Hash) (zeroHash : Hash) : List Hash → Hash
  | [] => zeroHash
  | [a] => a
  | a :: b :: rest => rootLoop combine zeroHash (nextLayer combine (a :: b :: rest))
termination_by l => l.length
decreasing_by
  simp only [nextLayer_length, List.length_cons]
  omega

/-- `merkle_root` from `crates/types`: zero hash for the empty list, otherwise the
iterated pairing of the leaf hashes. -/
def merkle_root (combine : Hash → Hash → Hash) (zeroHash : Hash)
    (txs : List (TxId Hash)) : Hash :=
  if txs.isEmpty then zeroHash
  else rootLoop combine zeroHash (txs.map TxId.hash)

/-- The sibling-collecting loop of `merkle_proof`: at each level record the adjacent
node (or the node itself at an odd tail), then halve the index and move one level up.
`getD` stands for the panicking index of the source; the default is never reached when
`idx < layer.length`. -/
def proofSiblings (combine : Hash → Hash → Hash) (zeroHash : Hash) :
    List Hash → Nat → List Hash
  | layer, idx =>
    if h : layer.length ≤ 1 then []
    else
      let sibIdx := if idx % 2 = 1 then idx - 1 else idx + 1
      let sib := if sibIdx < layer.length then layer.getD sibIdx zeroHash
                 else layer.getD idx zeroHash
      sib :: proofSiblings combine zeroHash (nextLayer combine layer) (idx / 2)
termination_by layer => layer.length
decreasing_by
  simp only [nextLayer_length]
  omega

/-- `merkle_proof` from `crates/types`: `None` for an empty list or out-of-range
index, otherwise the original index together with the bottom-up siblings. -/
def merkle_proof (combine : Hash → Hash → Hash) (zeroHash : Hash)
    (txs : List (TxId Hash)) (index : Nat) : Option (MerkleProof Hash) :=
  if txs.isEmpty ∨ txs.length ≤ index then none
  else some ⟨index, proofSiblings combine zeroHash (txs.map TxId.hash) index⟩

/-- The folding loop of `verify_merkle_proof`: walk the siblings bottom-up, hashing
left or right according to the parity of the running index. -/
def verifyFold (combine : Hash → Hash → Hash) : Hash → Nat → List Hash → Hash
  | h, _, [] => h
  | h, idx, s :: rest =>
    verifyFold combine (if idx % 2 = 0 then combine h s else combine s h) (idx / 2) rest

/-- `verify_merkle_proof` from `crates/types`: fold the siblings from the leaf and
compare the result with the claimed root.  The function returns a plain boolean. -/
def verify_merkle_proof [DecidableEq Hash] (combine : Hash → Hash → Hash)
    (root : Hash) (leaf : TxId Hash) (proof : MerkleProof Hash) : Bool :=
  decide (verifyFold combine leaf.hash proof.index proof.siblings = root)

theorem nextLayer_getD (combine : Hash → Hash → Hash) (d : Hash) :
    ∀ (l : List Hash) (k : Nat), 2 * k < l.length →
      (nextLayer combine l).getD k d =
        if 2 * k + 1 < l.length
        then combine (l.getD (2 * k) d) (l.getD (2 * k + 1) d)
        else combine (l.getD (2 * k) d) (l.getD (2 * k) d)
  | [], k, hk => by simp at hk
  | [a], k, hk => by
    have hk0 : k = 0 := by simp at hk; omega
    subst hk0
    simp [nextLayer]
  | a :: b :: rest, 0, hk => by
    simp [nextLayer]
  | a :: b :: rest, k + 1, hk => by
    have hrest : 2 * k < rest.length := by simp at hk; omega
    have IH := nextLayer_getD combine d rest k hrest
    have e0 : (nextLayer combine (a :: b :: rest)).getD (k + 1) d
        = (nextLayer combine rest).getD k d := by
      simp [nextLayer]
    have e1 : (a :: b :: rest).getD (2 * (k + 1)) d = rest.getD (2 * k) d := by
      have h2 : 2 * (k + 1) = (2 * k + 1) + 1 := by ring
      rw [h2, List.getD_cons_succ, List.getD_cons_succ]
    have e2 : (a :: b :: rest).getD (2 * (k + 1) + 1) d = rest.getD (2 * k + 1) d := by
      have h2 : 2 * (k + 1) + 1 = (2 * k + 2) + 1 := by ring
      rw [h2, List.getD_cons_succ, List.getD_cons_succ]
    rw [e0, IH, e1, e2]
    by_cases hc : 2 * k + 1 < rest.length
    · rw [if_pos hc, if_pos (by simp; omega)]
    · rw [if_neg hc, if_neg (by simp; omega)]

theorem rootLoop_step (combine : Hash → Hash → Hash) (zeroHash : Hash)
    (l : List Hash) (h : 2 ≤ l.length) :
    rootLoop combine zeroHash l = rootLoop combine zeroHash (nextLayer combine l) := by
  match l, h with
  | a :: b :: rest, _ => rw [rootLoop]

theorem proofSiblings_step (combine : Hash → Hash → Hash) (zeroHash : Hash)
    (layer : List Hash) (idx : Nat) (h : ¬ layer.length ≤ 1) :
    proofSiblings combine zeroHash layer idx =
      (if (if idx % 2 = 1 then idx - 1 else idx + 1) < layer.length
       then layer.getD (if idx % 2 = 1 then idx - 1 else idx + 1) zeroHash
       else layer.getD idx zeroHash)
      :: proofSiblings combine zeroHash (nextLayer combine layer) (idx / 2) := by
  rw [proofSiblings]
  simp [h]

/-- Folding the siblings produced by `proofSiblings` from the leaf at `idx`
reaches the root computed by `rootLoop`. -/
theorem verifyFold_proofSiblings (combine : Hash → Hash → Hash) (zeroHash : Hash)
    (layer : List Hash) (idx : Nat) (hidx : idx < layer.length) :
    verifyFold combine (layer.getD idx zeroHash) idx
        (proofSiblings combine zeroHash layer idx)
      = rootLoop combine zeroHash layer := by
  by_cases h1 : layer.length ≤ 1
  · match layer, hidx, h1 with
    | [a], hidx, _ =>
      have hidx0 : idx = 0 := by simp at hidx; omega
      subst hidx0
      rw [proofSiblings]
      simp [verifyFold, rootLoop]
  · have hnl := nextLayer_length combine layer
    have hrec := verifyFold_proofSiblings combine zeroHash (nextLayer combine layer)
      (idx / 2) (by rw [hnl]; omega)
    rw [proofSiblings_step combine zeroHash layer idx h1,
        rootLoop_step combine zeroHash layer (by omega), verifyFold]
    have key : (if idx % 2 = 0
          then combine (layer.getD idx zeroHash)
            (if (if idx % 2 = 1 then idx - 1 else idx + 1) < layer.length
             then layer.getD (if idx % 2 = 1 then idx - 1 else idx + 1) zeroHash
             else layer.getD idx zeroHash)
          else combine
            (if (if idx % 2 = 1 then idx - 1 else idx + 1) < layer.length
             then layer.getD (if idx % 2 = 1 then idx - 1 else idx + 1) zeroHash
             else layer.getD idx zeroHash)
            (layer.getD idx zeroHash))
        = (nextLayer combine layer).getD (idx / 2) zeroHash := by
      by_cases hp : idx % 2 = 0
      · have hidx2 : 2 * (idx / 2) = idx := by omega
        rw [nextLayer_getD combine zeroHash layer (idx / 2) (by omega)]
        rw [hidx2]
        by_cases hc : idx + 1 < layer.length
        · simp [hp, hc]
        · simp [hp, hc]
      · have hp1 : idx % 2 = 1 := by omega
        have hidx2 : 2 * (idx / 2) = idx - 1 := by omega
        have hidx3 : 2 * (idx / 2) + 1 = idx := by omega
        rw [nextLayer_getD combine zeroHash layer (idx / 2) (by omega)]
        rw [hidx3, hidx2, if_pos hidx]
        simp only [if_neg hp, if_pos hp1,
          if_pos (show idx - 1 < layer.length from by omega)]
    rw [key]
    exact hrec
termination_by layer.length
decreasing_by
  rw [nextLayer_length]
  omega

theorem getD_map_hash (zeroHash : Hash) :
    ∀ (txs : List (TxId Hash)) (i : Nat), i < txs.length →
      (txs.map TxId.hash).getD i zeroHash = (txs.getD i ⟨zeroHash⟩).hash
  | _ :: _, 0, _ => rfl
  | _ :: rest, i + 1, h =>
    getD_map_hash zeroHash rest i (by simpa using Nat.lt_of_succ_lt_succ h)

/-- C2: for every non-empty list `txs` and every index `i < txs.length`,
`merkle_proof txs i` returns `some` proof, and `verify_merkle_proof` accepts that
proof for leaf `txs[i]` against `merkle_root txs`. -/
theorem merkle_proof_roundtrip [DecidableEq Hash]
    (combine : Hash → Hash → Hash) (zeroHash : Hash)
    (txs : List (TxId Hash)) (i : Nat) (hne : txs ≠ []) (hi : i < txs.length) :
    ∃ p, merkle_proof combine zeroHash txs i = some p ∧
      verify_merkle_proof combine (merkle_root combine zeroHash txs)
        (txs.getD i ⟨zeroHash⟩) p = true := by
  refine ⟨⟨i, proofSiblings combine zeroHash (txs.map TxId.hash) i⟩, ?_, ?_⟩
  · rw [merkle_proof, if_neg]
    push_neg
    exact ⟨by simpa [List.isEmpty_iff] using hne, by omega⟩
  · have hlen : i < (txs.map TxId.hash).length := by simpa using hi
    have h := verifyFold_proofSiblings combine zeroHash (txs.map TxId.hash) i hlen
    rw [getD_map_hash zeroHash txs i hi] at h
    rw [verify_merkle_proof, merkle_root, if_neg (by simpa [List.isEmpty_iff] using hne)]
    exact decide_eq_true h

/-- Witness for C2: a three-leaf tree with leaf index 1; the generated proof exists
and verifies against the root. -/
theorem merkle_proof_roundtrip_witness :
    ([(⟨1⟩ : TxId Nat), ⟨2⟩, ⟨3⟩] ≠ [] ∧ 1 < [(⟨1⟩ : TxId Nat), ⟨2⟩, ⟨3⟩].length) ∧
    (∃ p, merkle_proof (fun a b => 2 * a + 3 * b + 1) 0 [(⟨1⟩ : TxId Nat), ⟨2⟩, ⟨3⟩] 1
            = some p ∧
      verify_merkle_proof (fun a b => 2 * a + 3 * b + 1)
        (merkle_root (fun a b => 2 * a + 3 * b + 1) 0 [(⟨1⟩ : TxId Nat), ⟨2⟩, ⟨3⟩])
        ([(⟨1⟩ : TxId Nat), ⟨2⟩, ⟨3⟩].getD 1 ⟨0⟩) p = true) :=
  ⟨⟨by decide, by decide⟩,
    merkle_proof_roundtrip (fun a b => 2 * a + 3 * b + 1) 0
      [(⟨1⟩ : TxId Nat), ⟨2⟩, ⟨3⟩] 1 (by decide) (by decide)⟩

/-- C8 counterexample: a structurally invalid proof — index 3 with an empty sibling
list, although any tree containing leaf index 3 has at least four leaves and hence at
least two proof levels — is not rejected with any `MalformedProof` error.
`verify_merkle_proof` returns a plain boolean, and here it even returns `true`:
the leaf is accepted because its hash equals the claimed root. -/
theorem malformed_proof_counterexample :
    verify_merkle_proof (fun a b : Nat => 2 * a + 3 * b + 1) 7 ⟨7⟩ ⟨3, []⟩ = true := by
  decide

/-- C8 amended: `verify_merkle_proof` performs no structural validation of the proof
and returns a plain boolean — no `MalformedProof` error exists in the code.  Any
sibling count whatsoever is accepted against the root that the sibling fold reaches,
regardless of `index`. -/
theorem verify_no_structural_check [DecidableEq Hash]
    (combine : Hash → Hash → Hash) (leaf : TxId Hash) (index : Nat)
    (siblings : List Hash) :
    verify_merkle_proof combine (verifyFold combine leaf.hash index siblings)
      leaf ⟨index, siblings⟩ = true := by
  simp [verify_merkle_proof]

/-- C10: a proof with an empty sibling list verifies exactly when the leaf's hash
equals the claimed root, for every index value; and the root of the empty tree is the
zero hash, so a leaf whose hash is the zero hash is accepted against the empty-tree
root by an empty proof. -/
theorem verify_empty_siblings [DecidableEq Hash]
    (combine : Hash → Hash → Hash) (zeroHash : Hash)
    (root : Hash) (leaf : TxId Hash) (index : Nat) :
    (verify_merkle_proof combine root leaf ⟨index, []⟩ = true ↔ leaf.hash = root) ∧
    merkle_root combine zeroHash [] = zeroHash := by
  constructor
  · simp [verify_merkle_proof, verifyFold]
  · rfl

end Merkle

/-- Association-list model of Rust's `HashMap`: lookup by key. -/
def mapLookup {κ β : Type} [DecidableEq κ] : List (κ × β) → κ → Option β
  | [], _ => none
  | (k, v) :: rest, key => if k = key then some v else mapLookup rest key

/-- Association-list model of `HashMap::insert`: replace the binding if the key is
present, otherwise append it. -/
def mapInsert {κ β : Type} [DecidableEq κ] : List (κ × β) → κ → β → List (κ × β)
  | [], key, v => [(key, v)]
  | (k, w) :: rest, key, v =>
    if k = key then (key, v) :: rest else (k, w) :: mapInsert rest key v

/-- Model of `by_namespace.entry(ns).or_insert_with(Vec::new).push(id)`. -/
def nsAppend {κ β : Type} [DecidableEq κ] : List (κ × List β) → κ → β → List (κ × List β)
  | [], ns, id => [(ns, [id])]
  | (k, l) :: rest, ns, id =>
    if k = ns then (k, l ++ [id]) :: rest else (k, l) :: nsAppend rest ns id

/-- `MempoolConfig` from `crates/mempool` (capacity bound, default 10000). -/
structure MempoolConfig where
  max_tx : Nat
deriving DecidableEq, Repr

/-- `MempoolError` from `crates/mempool`. -/
inductive MempoolError where
  | Full
deriving DecidableEq, Repr

/-- `SimpleMempool` from `crates/mempool`: FIFO queue of ids, id→transaction map,
and per-namespace index. -/
structure SimpleMempool (Hash : Type) where
  config : MempoolConfig
  queue : List (TxId Hash)
  txs : List (TxId Hash × Transaction)
  by_namespace : List (Nat × List (TxId Hash))
deriving DecidableEq, Repr

section Mempool

variable {Hash : Type} [DecidableEq Hash]

/-- `SimpleMempool::insert`: reject when at capacity; return the id with no change
when the transaction is already present; otherwise append to the FIFO queue, the
namespace bucket and the id→tx map.  `txIdOf` abstracts `Transaction::id`. -/
def SimpleMempool.insert (txIdOf : Transaction → TxId Hash)
    (mp : SimpleMempool Hash) (tx : Transaction) :
    Except MempoolError (TxId Hash × SimpleMempool Hash) :=
  if mp.config.max_tx ≤ mp.txs.length then .error .Full
  else
    let id := txIdOf tx
    if (mapLookup mp.txs id).isSome then .ok (id, mp)
    else .ok (id, { mp with
      queue := mp.queue ++ [id],
      by_namespace := nsAppend mp.by_namespace tx.namespace id,
      txs := mapInsert mp.txs id tx })

/-- The candidate list of `SimpleMempool::get_batch`: the FIFO queue enumerated with
its insertion positions, keeping the entries that resolve in the id→tx map. -/
def batchCandidates (mp : SimpleMempool Hash) :
    List (TxId Hash × Transaction × Nat) :=
  mp.queue.enum.filterMap
    (fun pi => (mapLookup mp.txs pi.2).map (fun tx => (pi.2, tx, pi.1)))

/-- The comparator of `SimpleMempool::get_batch` as a `Bool` order: gas price
descending, insertion position ascending on ties. -/
def batchLe (a b : TxId Hash × Transaction × Nat) : Bool :=
  decide (b.2.1.gas_price < a.2.1.gas_price) ||
    (decide (a.2.1.gas_price = b.2.1.gas_price) && decide (a.2.2 ≤ b.2.2))

/-- `SimpleMempool::get_batch`: sort the candidates by the comparator, take the first
`max`, drop the positions.  Read-only in the source (`&self`). -/
def SimpleMempool.get_batch (mp : SimpleMempool Hash) (max : Nat) :
    List (TxId Hash × Transaction) :=
  if max = 0 ∨ mp.txs.isEmpty then []
  else ((batchCandidates mp).mergeSort batchLe |>.take max).map
    (fun c => (c.1, c.2.1))

/-- `SimpleMempool::len`: size of the id→tx map. -/
def SimpleMempool.len (mp : SimpleMempool Hash) : Nat := mp.txs.length

/-- The strict priority order of the specification: gas price strictly descending, or
equal gas price and strictly earlier insertion position. -/
def batchBefore (a b : TxId Hash × Transaction × Nat) : Prop :=
  b.2.1.gas_price < a.2.1.gas_price ∨
    (a.2.1.gas_price = b.2.1.gas_price ∧ a.2.2 < b.2.2)

theorem mem_batchCandidatesAux_pos_ge (txs : List (TxId Hash × Transaction)) :
    ∀ (n : Nat) (q : List (TxId Hash)) (c : TxId Hash × Transaction × Nat),
      c ∈ (q.enumFrom n).filterMap
        (fun pi => (mapLookup txs pi.2).map (fun tx => (pi.2, tx, pi.1))) →
      n ≤ c.2.2
  | _, [], _, hc => by simp [List.enumFrom] at hc
  | n, x :: xs, c, hc => by
    rw [List.enumFrom_cons, List.filterMap_cons] at hc
    rcases hx : mapLookup txs x with _ | tx
    · rw [hx] at hc
      simp only [Option.map_none'] at hc
      exact Nat.le_of_succ_le (mem_batchCandidatesAux_pos_ge txs (n + 1) xs c hc)
    · rw [hx] at hc
      simp only [Option.map_some', List.mem_cons] at hc
      rcases hc with hc | hc
      · subst hc; exact Nat.le_refl n
      · exact Nat.le_of_succ_le (mem_batchCandidatesAux_pos_ge txs (n + 1) xs c hc)

theorem batchCandidatesAux_pos_lt (txs : List (TxId Hash × Transaction)) :
    ∀ (n : Nat) (q : List (TxId Hash)),
      ((q.enumFrom n).filterMap
        (fun pi => (mapLookup txs pi.2).map (fun tx => (pi.2, tx, pi.1)))).Pairwise
        (fun a b => a.2.2 < b.2.2)
  | _, [] => by simp [List.enumFrom]
  | n, x :: xs => by
    rw [List.enumFrom_cons, List.filterMap_cons]
    rcases hx : mapLookup txs x with _ | tx
    · simpa using batchCandidatesAux_pos_lt txs (n + 1) xs
    · simp only [Option.map_some']
      refine List.Pairwise.cons ?_ (batchCandidatesAux_pos_lt txs (n + 1) xs)
      intro c hc
      exact Nat.lt_of_succ_le (mem_batchCandidatesAux_pos_ge txs (n + 1) xs c hc)

theorem batchCandidates_pos_lt (mp : SimpleMempool Hash) :
    (batchCandidates mp).Pairwise (fun a b => a.2.2 < b.2.2) := by
  rw [batchCandidates, List.enum_eq_enumFrom]
  exact batchCandidatesAux_pos_lt mp.txs 0 mp.queue

theorem batchLe_total (a b : TxId Hash × Transaction × Nat) :
    batchLe a b || batchLe b a := by
  simp only [batchLe, Bool.or_eq_true, Bool.and_eq_true, decide_eq_true_eq]
  omega

theorem batchLe_trans (a b c : TxId Hash × Transaction × Nat)
    (h1 : batchLe a b) (h2 : batchLe b c) : batchLe a c := by
  simp only [batchLe, Bool.or_eq_true, Bool.and_eq_true, decide_eq_true_eq] at h1 h2 ⊢
  omega

/-- C4: `get_batch max` returns at most `max` pairs, and the result is exactly the
first `max` elements (ids and transactions, positions dropped) of a permutation of
the candidate list that is strictly sorted by gas price descending with ties broken
by insertion position ascending. -/
theorem get_batch_spec (mp : SimpleMempool Hash) (max : Nat) :
    (mp.get_batch max).length ≤ max ∧
    ∃ cs : List (TxId Hash × Transaction × Nat),
      cs.Perm (batchCandidates mp) ∧ cs.Pairwise batchBefore ∧
      mp.get_batch max = (cs.take max).map (fun c => (c.1, c.2.1)) := by
  have hperm : ((batchCandidates mp).mergeSort batchLe).Perm (batchCandidates mp) :=
    List.mergeSort_perm (batchCandidates mp) batchLe
  have hsorted : ((batchCandidates mp).mergeSort batchLe).Pairwise (batchLe · ·) :=
    List.sorted_mergeSort
      (fun a b c => batchLe_trans a b c) (fun a b => batchLe_total a b)
      (batchCandidates mp)
  have hposnd : (((batchCandidates mp).mergeSort batchLe).map
      (fun c => c.2.2)).Nodup := by
    have h1 : ((batchCandidates mp).map (fun c => c.2.2)).Nodup := by
      rw [List.nodup_iff_sublist]
      intro a h
      have := (List.pairwise_map.mpr
        ((batchCandidates_pos_lt mp).imp (fun h => Nat.ne_of_lt h)))
      exact absurd rfl ((List.pairwise_iff_forall_sublist.mp this) h)
    exact ((hperm.map (fun c => c.2.2)).nodup_iff).mpr h1
  have hstrict : ((batchCandidates mp).mergeSort batchLe).Pairwise batchBefore := by
    have hne : ((batchCandidates mp).mergeSort batchLe).Pairwise
        (fun a b => a.2.2 ≠ b.2.2) :=
      List.pairwise_map.mp hposnd
    refine (hsorted.and hne).imp ?_
    rintro a b ⟨hle, hnep⟩
    simp only [batchLe, Bool.or_eq_true, Bool.and_eq_true, decide_eq_true_eq] at hle
    rcases hle with h | ⟨heq, hpos⟩
    · exact Or.inl h
    · exact Or.inr ⟨heq, Nat.lt_of_le_of_ne hpos hnep⟩
  constructor
  · rw [SimpleMempool.get_batch]
    by_cases h : max = 0 ∨ mp.txs.isEmpty
    · rw [if_pos h]; simp
    · rw [if_neg h]
      calc ((((batchCandidates mp).mergeSort batchLe).take max).map
              (fun c => (c.1, c.2.1))).length
          = (((batchCandidates mp).mergeSort batchLe).take max).length := by
            rw [List.length_map]
        _ ≤ max := by rw [List.length_take]; omega
  · refine ⟨(batchCandidates mp).mergeSort batchLe, hperm, hstrict, ?_⟩
    rw [SimpleMempool.get_batch]
    by_cases h : max = 0 ∨ mp.txs.isEmpty
    · rw [if_pos h]
      rcases h with h | h
      · subst h; simp
      · have hcand : batchCandidates mp = [] := by
          rw [batchCandidates]
          rw [List.filterMap_eq_nil_iff]
          intro pi _
          have : mp.txs = [] := List.isEmpty_iff.mp h
          rw [this]
          simp [mapLookup]
        have hlen0 : ((batchCandidates mp).mergeSort batchLe).length = 0 := by
          rw [hperm.length_eq, hcand]
          rfl
        rw [List.eq_nil_of_length_eq_zero hlen0]
        simp
    · rw [if_neg h]

theorem mapLookup_mapInsert_self {κ β : Type} [DecidableEq κ] :
    ∀ (m : List (κ × β)) (k : κ) (v : β), mapLookup (mapInsert m k v) k = some v
  | [], k, v => by simp [mapInsert, mapLookup]
  | (k0, w) :: rest, k, v => by
    by_cases h : k0 = k
    · simp [mapInsert, mapLookup, h]
    · simp only [mapInsert, if_neg h, mapLookup]
      exact mapLookup_mapInsert_self rest k v

theorem mapInsert_length_of_lookup_none {κ β : Type} [DecidableEq κ] :
    ∀ (m : List (κ × β)) (k : κ) (v : β), mapLookup m k = none →
      (mapInsert m k v).length = m.length + 1
  | [], _, _, _ => rfl
  | (k0, w) :: rest, k, v, h => by
    by_cases hk : k0 = k
    · rw [mapLookup, if_pos hk] at h
      exact absurd h (by simp)
    · rw [mapLookup, if_neg hk] at h
      simp only [mapInsert, if_neg hk, List.length_cons,
        mapInsert_length_of_lookup_none rest k v h]

theorem mapLookup_nsAppend_self {κ β : Type} [DecidableEq κ] :
    ∀ (m : List (κ × List β)) (ns : κ) (id : β),
      mapLookup (nsAppend m ns id) ns
        = some ((mapLookup m ns).getD [] ++ [id])
  | [], ns, id => by simp [nsAppend, mapLookup]
  | (k, l) :: rest, ns, id => by
    by_cases h : k = ns
    · simp [nsAppend, mapLookup, h]
    · simp only [nsAppend, if_neg h, mapLookup]
      exact mapLookup_nsAppend_self rest ns id

/-- C5: `insert` fails with `Full` exactly when the pool already holds `max_tx`
transactions; a duplicate id (below capacity) is returned with no mutation; a fresh
transaction (below capacity) is appended to the FIFO queue, its namespace bucket and
the id→tx map, and `len` grows by one. -/
theorem insert_spec (txIdOf : Transaction → TxId Hash)
    (mp : SimpleMempool Hash) (tx : Transaction)
    (hcap : mp.txs.length ≤ mp.config.max_tx) :
    (mp.insert txIdOf tx = .error .Full ↔ mp.txs.length = mp.config.max_tx) ∧
    (mp.txs.length < mp.config.max_tx → (mapLookup mp.txs (txIdOf tx)).isSome →
        mp.insert txIdOf tx = .ok (txIdOf tx, mp)) ∧
    (mp.txs.length < mp.config.max_tx → (mapLookup mp.txs (txIdOf tx)).isSome = false →
        ∃ mp', mp.insert txIdOf tx = .ok (txIdOf tx, mp') ∧
          mp'.queue = mp.queue ++ [txIdOf tx] ∧
          mapLookup mp'.txs (txIdOf tx) = some tx ∧
          mp'.len = mp.len + 1 ∧
          mapLookup mp'.by_namespace tx.namespace
            = some ((mapLookup mp.by_namespace tx.namespace).getD [] ++ [txIdOf tx])) := by
  refine ⟨?_, ?_, ?_⟩
  · constructor
    · intro h
      by_contra hne
      have hlt : mp.txs.length < mp.config.max_tx := by omega
      rw [SimpleMempool.insert, if_neg (by omega)] at h
      by_cases hdup : (mapLookup mp.txs (txIdOf tx)).isSome
      · rw [if_pos hdup] at h
        exact Except.noConfusion h
      · rw [if_neg hdup] at h
        exact Except.noConfusion h
    · intro h
      rw [SimpleMempool.insert, if_pos (by omega)]
  · intro hlt hdup
    rw [SimpleMempool.insert, if_neg (by omega), if_pos hdup]
  · intro hlt hdup
    have hnone : mapLookup mp.txs (txIdOf tx) = none := by
      rcases hx : mapLookup mp.txs (txIdOf tx) with _ | v
      · rfl
      · rw [hx] at hdup; simp at hdup
    refine ⟨{ mp with
        queue := mp.queue ++ [txIdOf tx],
        by_namespace := nsAppend mp.by_namespace tx.«namespace» (txIdOf tx),
        txs := mapInsert mp.txs (txIdOf tx) tx }, ?_, ?_, ?_, ?_, ?_⟩
    · rw [SimpleMempool.insert, if_neg (by omega), if_neg (by simp [hdup])]
    · rfl
    · exact mapLookup_mapInsert_self mp.txs (txIdOf tx) tx
    · show (mapInsert mp.txs (txIdOf tx) tx).length = mp.txs.length + 1
      exact mapInsert_length_of_lookup_none mp.txs (txIdOf tx) tx hnone
    · exact mapLookup_nsAppend_self mp.by_namespace tx.«namespace» (txIdOf tx)

end Mempool

/-- `StorageError` from `crates/storage`. -/
inductive StorageError where
  | NotFound
  | Backend (msg : String)
deriving DecidableEq, Repr

/-- `ConsensusError` from `crates/consensus`.  The source wraps the underlying error's
`to_string()`; the model carries the error value itself. -/
inductive ConsensusError where
  | Mempool (e : MempoolError)
  | Storage (e : StorageError)
deriving DecidableEq, Repr

/-- `QuorumCertificate` from `crates/consensus` (synthetic single-validator QC). -/
structure QuorumCertificate (Hash : Type) where
  view : Nat
  block_id : BlockId Hash
deriving DecidableEq, Repr

/-- `FinalityEvent` from `crates/consensus`. -/
inductive FinalityEvent (Hash : Type) where
  | BlockCommitted (block : Block Hash) (qc : QuorumCertificate Hash)
deriving DecidableEq, Repr

/-- `SingleNodeConsensus<M, S>` from `crates/consensus`: view counter, validator id
(a 32-byte array, modelled by `Hash`), mempool, storage, and the current tip. -/
structure SingleNodeConsensus (Hash M S : Type) where
  view : Nat
  validator : Hash
  mempool : M
  storage : S
  last_block_id : Option (BlockId Hash)
  last_height : Nat

/-- `SingleNodeConsensus::new`: view 0, all-zero validator id, no tip. -/
def SingleNodeConsensus.new {Hash M S : Type} (zeroHash : Hash) (mempool : M)
    (storage : S) : SingleNodeConsensus Hash M S :=
  { view := 0, validator := zeroHash, mempool := mempool, storage := storage,
    last_block_id := none, last_height := 0 }

section Consensus

variable {Hash M S : Type}

/-!
The engine is generic over the mempool `M` and the storage `S` exactly as the Rust
engine is generic over `M: Mempool` and `S: BlockStore + StateStore + TxStore`.  The
two trait methods `step` uses are passed as functions:
* `getBatch` models `Mempool::get_batch` (an `&self` method — it cannot mutate);
* `putBlock` models `BlockStore::put_block` (`&mut self`, fallible); it returns the
  storage as the call leaves it together with `None` on success or `Some err` on
  failure.
`ts` is the wall-clock reading `timestamp_ms`, passed as an explicit input.
-/

/-- `SingleNodeConsensus::build_block`: pull a batch of at most 100 transactions;
`None` if it is empty; otherwise a block at height `last_height + 1` on parent
`last_block_id`, with `tx_root` the Merkle root of the batch's ids in order, a zero
placeholder `state_root`, and the validator as proposer. -/
def build_block (combine : Hash → Hash → Hash) (zeroHash : Hash)
    (getBatch : M → Nat → List (TxId Hash × Transaction))
    (ts : Nat) (st : SingleNodeConsensus Hash M S) : Option (Block Hash) :=
  if (getBatch st.mempool 100).isEmpty then none
  else some
    { header :=
      { height := st.last_height + 1,
        parent := st.last_block_id,
        tx_root := merkle_root combine zeroHash
          ((getBatch st.mempool 100).map Prod.fst),
        state_root := zeroHash,
        timestamp_ms := ts,
        proposer := st.validator },
      txs := (getBatch st.mempool 100).map Prod.fst }

/-- `SingleNodeConsensus::step`: increment the view first; build a block (no event if
the batch is empty); persist it (propagate a `Storage` error without advancing the
tip); then advance the tip and emit `BlockCommitted`. -/
def step (combine : Hash → Hash → Hash) (zeroHash : Hash)
    (getBatch : M → Nat → List (TxId Hash × Transaction))
    (putBlock : S → Block Hash → S × Option StorageError)
    (headerId : BlockHeader Hash → BlockId Hash)
    (ts : Nat) (st : SingleNodeConsensus Hash M S) :
    SingleNodeConsensus Hash M S × Except ConsensusError (Option (FinalityEvent Hash)) :=
  let st1 := { st with view := st.view + 1 }
  match build_block combine zeroHash getBatch ts st1 with
  | none => (st1, .ok none)
  | some block =>
    match putBlock st1.storage block with
    | (storage1, some e) => ({ st1 with storage := storage1 }, .error (.Storage e))
    | (storage1, none) =>
      ({ st1 with storage := storage1,
                  last_block_id := some (headerId block.header),
                  last_height := block.header.height },
       .ok (some (.BlockCommitted block ⟨st1.view, headerId block.header⟩)))

/-- A run of the engine: one `step` per timestamp, collecting the blocks carried on
the `BlockCommitted` events of the successful steps. -/
def runEvents (combine : Hash → Hash → Hash) (zeroHash : Hash)
    (getBatch : M → Nat → List (TxId Hash × Transaction))
    (putBlock : S → Block Hash → S × Option StorageError)
    (headerId : BlockHeader Hash → BlockId Hash) :
    SingleNodeConsensus Hash M S → List Nat → List (Block Hash)
  | _, [] => []
  | st, ts :: rest =>
    match step combine zeroHash getBatch putBlock headerId ts st with
    | (st', .ok (some (.BlockCommitted b _))) =>
      b :: runEvents combine zeroHash getBatch putBlock headerId st' rest
    | (st', _) => runEvents combine zeroHash getBatch putBlock headerId st' rest

/-- The chain shape of a committed-block sequence starting from height `h0` and
parent id `p`: heights `h0+1, h0+2, …` and each block's parent the id of the
previous one. -/
def chainFrom (headerId : BlockHeader Hash → BlockId Hash) :
    Nat → Option (BlockId Hash) → List (Block Hash) → Prop
  | _, _, [] => True
  | h0, p, b :: rest =>
    b.header.height = h0 + 1 ∧ b.header.parent = p ∧
      chainFrom headerId (h0 + 1) (some (headerId b.header)) rest

/-- All-zero block used as the `getD` default in indexed statements. -/
def defaultBlock (zeroHash : Hash) : Block Hash :=
  { header := { height := 0, parent := none, tx_root := zeroHash,
                state_root := zeroHash, timestamp_ms := 0, proposer := zeroHash },
    txs := [] }

theorem build_block_shape (combine : Hash → Hash → Hash) (zeroHash : Hash)
    (getBatch : M → Nat → List (TxId Hash × Transaction))
    (ts : Nat) (st : SingleNodeConsensus Hash M S) (block : Block Hash)
    (h : build_block combine zeroHash getBatch ts st = some block) :
    block.header.height = st.last_height + 1 ∧
    block.header.parent = st.last_block_id ∧
    block.header.tx_root = merkle_root combine zeroHash block.txs := by
  rw [build_block] at h
  by_cases hb : (getBatch st.mempool 100).isEmpty
  · rw [if_pos hb] at h
    exact Option.noConfusion h
  · rw [if_neg hb] at h
    injection h with h
    subst h
    exact ⟨rfl, rfl, rfl⟩

theorem runEvents_chain (combine : Hash → Hash → Hash) (zeroHash : Hash)
    (getBatch : M → Nat → List (TxId Hash × Transaction))
    (putBlock : S → Block Hash → S × Option StorageError)
    (headerId : BlockHeader Hash → BlockId Hash) :
    ∀ (tss : List Nat) (st : SingleNodeConsensus Hash M S),
      chainFrom headerId st.last_height st.last_block_id
        (runEvents combine zeroHash getBatch putBlock headerId st tss)
  | [], _ => trivial
  | ts :: rest, st => by
    rcases hbb : build_block combine zeroHash getBatch ts
        { st with view := st.view + 1 } with _ | block
    · have hr : runEvents combine zeroHash getBatch putBlock headerId st (ts :: rest)
          = runEvents combine zeroHash getBatch putBlock headerId
              { st with view := st.view + 1 } rest := by
        simp [runEvents, step, hbb]
      rw [hr]
      exact runEvents_chain combine zeroHash getBatch putBlock headerId rest
        { st with view := st.view + 1 }
    · rcases hpb : putBlock ({ st with view := st.view + 1 } :
          SingleNodeConsensus Hash M S).storage block with ⟨s1, e⟩
      rcases e with _ | err
      · obtain ⟨hh, hp, _⟩ := build_block_shape combine zeroHash getBatch ts
          { st with view := st.view + 1 } block hbb
        have hh2 : block.header.height = st.last_height + 1 := hh
        have hp2 : block.header.parent = st.last_block_id := hp
        have hr : runEvents combine zeroHash getBatch putBlock headerId st (ts :: rest)
            = block :: runEvents combine zeroHash getBatch putBlock headerId
                { st with view := st.view + 1, storage := s1, last_block_id := some (headerId block.header), last_height := st.last_height + 1 } rest := by
          simp [runEvents, step, hbb, hpb, hh2]
        rw [hr]
        exact ⟨hh2, hp2, runEvents_chain combine zeroHash getBatch putBlock headerId rest { st with view := st.view + 1, storage := s1, last_block_id := some (headerId block.header), last_height := st.last_height + 1 }⟩
      · have hr : runEvents combine zeroHash getBatch putBlock headerId st (ts :: rest)
            = runEvents combine zeroHash getBatch putBlock headerId
                { st with view := st.view + 1, storage := s1 } rest := by
          simp [runEvents, step, hbb, hpb]
        rw [hr]
        exact runEvents_chain combine zeroHash getBatch putBlock headerId rest
          { st with view := st.view + 1, storage := s1 }

theorem chainFrom_getD (headerId : BlockHeader Hash → BlockId Hash)
    (d : Block Hash) :
    ∀ (bs : List (Block Hash)) (h0 : Nat) (p : Option (BlockId Hash)),
      chainFrom headerId h0 p bs → ∀ k, k < bs.length →
        (bs.getD k d).header.height = h0 + k + 1 ∧
        (bs.getD k d).header.parent
          = (if k = 0 then p else some (headerId ((bs.getD (k - 1) d).header)))
  | [], _, _, _, k, hk => absurd hk (by simp)
  | b :: rest, h0, p, hch, 0, _ => by
    obtain ⟨hh, hp, _⟩ := hch
    simpa using ⟨hh, hp⟩
  | b :: rest, h0, p, hch, k + 1, hk => by
    obtain ⟨hh, hp, hrest⟩ := hch
    have IH := chainFrom_getD headerId d rest (h0 + 1) (some (headerId b.header))
      hrest k (by simpa using hk)
    obtain ⟨ih1, ih2⟩ := IH
    constructor
    · rw [List.getD_cons_succ, ih1]
      omega
    · rw [List.getD_cons_succ, ih2]
      rcases k with _ | k'
      · simp
      · simp [List.getD_cons_succ]

/-- C1: in any run of the engine from a fresh state, the committed blocks have
heights exactly `1, 2, 3, …` with no gaps; the first block's parent is `None` and
every later block's parent is the id of the previous committed block. -/
theorem committed_blocks_chain (combine : Hash → Hash → Hash) (zeroHash : Hash)
    (getBatch : M → Nat → List (TxId Hash × Transaction))
    (putBlock : S → Block Hash → S × Option StorageError)
    (headerId : BlockHeader Hash → BlockId Hash)
    (m : M) (s : S) (tss : List Nat) (k : Nat)
    (hk : k < (runEvents combine zeroHash getBatch putBlock headerId
        (SingleNodeConsensus.new zeroHash m s) tss).length) :
    ((runEvents combine zeroHash getBatch putBlock headerId
        (SingleNodeConsensus.new zeroHash m s) tss).getD k
        (defaultBlock zeroHash)).header.height = k + 1 ∧
    ((runEvents combine zeroHash getBatch putBlock headerId
        (SingleNodeConsensus.new zeroHash m s) tss).getD k
        (defaultBlock zeroHash)).header.parent
      = (if k = 0 then none
         else some (headerId (((runEvents combine zeroHash getBatch putBlock headerId
             (SingleNodeConsensus.new zeroHash m s) tss).getD (k - 1)
             (defaultBlock zeroHash)).header))) := by
  have hch := runEvents_chain combine zeroHash getBatch putBlock headerId tss
    (SingleNodeConsensus.new zeroHash m s)
  have h := chainFrom_getD headerId (defaultBlock zeroHash) _ _ _ hch k hk
  refine ⟨h.1.trans ?_, h.2.trans ?_⟩ <;> simp [SingleNodeConsensus.new]

/-- C6: every block carried on a `BlockCommitted` event of a successful `step` has
`tx_root` equal to the Merkle root of its transaction-id list, and that very block is
the one handed to `put_block`. -/
theorem committed_tx_root (combine : Hash → Hash → Hash) (zeroHash : Hash)
    (getBatch : M → Nat → List (TxId Hash × Transaction))
    (putBlock : S → Block Hash → S × Option StorageError)
    (headerId : BlockHeader Hash → BlockId Hash)
    (ts : Nat) (st : SingleNodeConsensus Hash M S) (ev : FinalityEvent Hash)
    (h : (step combine zeroHash getBatch putBlock headerId ts st).2
        = .ok (some ev)) :
    ∃ b qc, ev = .BlockCommitted b qc ∧
      b.header.tx_root = merkle_root combine zeroHash b.txs ∧
      (step combine zeroHash getBatch putBlock headerId ts st).1.storage
        = (putBlock st.storage b).1 := by
  rcases hbb : build_block combine zeroHash getBatch ts
      { st with view := st.view + 1 } with _ | block
  · rw [step] at h
    simp only [hbb] at h
    exact Option.noConfusion (Except.ok.inj h)
  · rcases hpb : putBlock ({ st with view := st.view + 1 } :
        SingleNodeConsensus Hash M S).storage block with ⟨s1, e⟩
    rcases e with _ | err
    · obtain ⟨_, _, hroot⟩ := build_block_shape combine zeroHash getBatch ts
        { st with view := st.view + 1 } block hbb
      refine ⟨block, ⟨st.view + 1, headerId block.header⟩, ?_, hroot, ?_⟩
      · rw [step] at h
        simp only [hbb, hpb] at h
        exact ((Option.some.inj (Except.ok.inj h))).symm
      · rw [step]
        simp only [hbb, hpb]
    · rw [step] at h
      simp only [hbb, hpb] at h
      exact Except.noConfusion h

/-- C7: `step` never mutates the mempool — whatever the outcome, the engine's
mempool after the call is the one before it, so the next `get_batch` returns the same
batch (committed transactions stay until `remove_committed` is called externally). -/
theorem step_preserves_mempool (combine : Hash → Hash → Hash) (zeroHash : Hash)
    (getBatch : M → Nat → List (TxId Hash × Transaction))
    (putBlock : S → Block Hash → S × Option StorageError)
    (headerId : BlockHeader Hash → BlockId Hash)
    (ts : Nat) (st : SingleNodeConsensus Hash M S) :
    (step combine zeroHash getBatch putBlock headerId ts st).1.mempool = st.mempool ∧
    ∀ n, getBatch
        (step combine zeroHash getBatch putBlock headerId ts st).1.mempool n
      = getBatch st.mempool n := by
  have h : (step combine zeroHash getBatch putBlock headerId ts st).1.mempool
      = st.mempool := by
    rcases hbb : build_block combine zeroHash getBatch ts
        { st with view := st.view + 1 } with _ | block
    · rw [step]
      simp only [hbb]
    · rcases hpb : putBlock ({ st with view := st.view + 1 } :
          SingleNodeConsensus Hash M S).storage block with ⟨s1, e⟩
      rcases e with _ | err
      · rw [step]
        simp only [hbb, hpb]
      · rw [step]
        simp only [hbb, hpb]
  exact ⟨h, fun n => by rw [h]⟩

/-- C3 amended: when `step` returns an error the tip is not advanced —
`last_block_id`, `last_height` and the mempool are unchanged and no event is emitted
— but the view has already been incremented (the increment precedes the fallible
write), and the storage is whatever the failed `put_block` left. -/
theorem step_error_frame (combine : Hash → Hash → Hash) (zeroHash : Hash)
    (getBatch : M → Nat → List (TxId Hash × Transaction))
    (putBlock : S → Block Hash → S × Option StorageError)
    (headerId : BlockHeader Hash → BlockId Hash)
    (ts : Nat) (st st' : SingleNodeConsensus Hash M S) (e : ConsensusError)
    (h : step combine zeroHash getBatch putBlock headerId ts st = (st', .error e)) :
    st'.last_block_id = st.last_block_id ∧ st'.last_height = st.last_height ∧
    st'.mempool = st.mempool ∧ st'.view = st.view + 1 ∧
    ∃ b, build_block combine zeroHash getBatch ts { st with view := st.view + 1 }
        = some b ∧ st'.storage = (putBlock st.storage b).1 := by
  rcases hbb : build_block combine zeroHash getBatch ts
      { st with view := st.view + 1 } with _ | block
  · rw [step] at h
    simp only [hbb] at h
    exact Except.noConfusion (congrArg Prod.snd h)
  · rcases hpb : putBlock ({ st with view := st.view + 1 } :
        SingleNodeConsensus Hash M S).storage block with ⟨s1, e1⟩
    rcases e1 with _ | err
    · rw [step] at h
      simp only [hbb, hpb] at h
      exact Except.noConfusion (congrArg Prod.snd h)
    · rw [step] at h
      simp only [hbb, hpb] at h
      have hst : st' = { st with view := st.view + 1, storage := s1 } :=
        (congrArg Prod.fst h).symm
      subst hst
      have hpb2 : putBlock st.storage block = (s1, some err) := hpb
      exact ⟨rfl, rfl, rfl, rfl, block, rfl, by rw [hpb2]⟩

end Consensus

/-- `InMemoryStorage` from `crates/storage`: four in-process maps, modelled as
association lists. -/
structure InMemoryStorage (Hash : Type) where
  blocks_by_id : List (BlockId Hash × Block Hash)
  blocks_by_height : List (Nat × BlockId Hash)
  txs : List (TxId Hash × Transaction)
  state_roots : List (Nat × Hash)

/-- `InMemoryStorage::default()`: all maps empty. -/
def InMemoryStorage.default (Hash : Type) : InMemoryStorage Hash :=
  { blocks_by_id := [], blocks_by_height := [], txs := [], state_roots := [] }

/-- `SledStorage` from `crates/storage`: four sled trees.  A sled tree is a B-tree
iterated in key order; heights are stored as big-endian `u64` keys, whose
lexicographic byte order coincides with numeric order, so each tree is modelled as an
association list sorted by key ascending (the `db` handle carries no state of its
own and is dropped). -/
structure SledStorage (Hash : Type) where
  blocks : List (BlockId Hash × Block Hash)
  blocks_by_height : List (Nat × BlockId Hash)
  txs : List (TxId Hash × Transaction)
  state_roots : List (Nat × Hash)

/-- `SledStorage::open` on a fresh directory: all trees empty. -/
def SledStorage.open (Hash : Type) : SledStorage Hash :=
  { blocks := [], blocks_by_height := [], txs := [], state_roots := [] }

/-- Model of `sled::Tree::insert` on `u64` big-endian keys: place the new pair at its
key position, overwriting an equal key. -/
def sledInsert {β : Type} : List (Nat × β) → Nat → β → List (Nat × β)
  | [], h, v => [(h, v)]
  | (k, w) :: rest, h, v =>
    if h < k then (h, v) :: (k, w) :: rest
    else if h = k then (h, v) :: rest
    else (k, w) :: sledInsert rest h v

section Storage

variable {Hash : Type}

/-- `InMemoryStorage::put_state_root` (infallible: the source always returns `Ok`). -/
def InMemoryStorage.put_state_root (st : InMemoryStorage Hash)
    (height : Nat) (root : Hash) : InMemoryStorage Hash :=
  { st with state_roots := mapInsert st.state_roots height root }

/-- The max-scanning loop shared by the two `latest_state_root` implementations:
`keep best cur` decides whether the entry under scan replaces the current best.
`InMemoryStorage` uses `max_by_key` (keep on ties, i.e. `best ≤ cur`); `SledStorage`
keeps the first maximum (`best < cur`). -/
def latestScan (keep : Nat → Nat → Bool) :
    Option (Nat × Hash) → List (Nat × Hash) → Option (Nat × Hash)
  | acc, [] => acc
  | acc, (h, r) :: rest =>
    latestScan keep
      (match acc with
       | none => some (h, r)
       | some (bh, br) => if keep bh h then some (h, r) else some (bh, br)) rest

/-- `InMemoryStorage::latest_state_root`: `iter().max_by_key(height)`, `NotFound`
when empty.  (`HashMap` iteration order is unspecified; with pairwise-distinct
heights the maximum is order-independent.) -/
def InMemoryStorage.latest_state_root (st : InMemoryStorage Hash) :
    Except StorageError (Nat × Hash) :=
  match latestScan (fun bh h => decide (bh ≤ h)) none st.state_roots with
  | none => .error .NotFound
  | some p => .ok p

/-- `SledStorage::put_state_root` (the model assumes a healthy backend: the source
propagates sled I/O failures, which have no counterpart on an in-memory list). -/
def SledStorage.put_state_root (st : SledStorage Hash)
    (height : Nat) (root : Hash) : SledStorage Hash :=
  { st with state_roots := sledInsert st.state_roots height root }

/-- `SledStorage::latest_state_root`: scan the tree keeping the strictly greater
height, `NotFound` when empty. -/
def SledStorage.latest_state_root (st : SledStorage Hash) :
    Except StorageError (Nat × Hash) :=
  match latestScan (fun bh h => decide (bh < h)) none st.state_roots with
  | none => .error .NotFound
  | some p => .ok p

/-- A sequence of `put_state_root` calls against the in-memory store. -/
def putStateRootsMem (st : InMemoryStorage Hash) :
    List (Nat × Hash) → InMemoryStorage Hash
  | [] => st
  | (h, r) :: ps => putStateRootsMem (st.put_state_root h r) ps

/-- A sequence of `put_state_root` calls against the sled store. -/
def putStateRootsSled (st : SledStorage Hash) :
    List (Nat × Hash) → SledStorage Hash
  | [] => st
  | (h, r) :: ps => putStateRootsSled (st.put_state_root h r) ps

theorem latestScan_isSome (keep : Nat → Nat → Bool) :
    ∀ (m : List (Nat × Hash)) (acc : Option (Nat × Hash)),
      m ≠ [] ∨ acc.isSome → (latestScan keep acc m).isSome
  | [], acc, h => by
    rcases h with h | h
    · exact absurd rfl h
    · simpa [latestScan] using h
  | (h0, r0) :: rest, acc, _ => by
    rcases acc with _ | ⟨bh, br⟩
    · show (latestScan keep (some (h0, r0)) rest).isSome
      exact latestScan_isSome keep rest (some (h0, r0)) (Or.inr rfl)
    · show (latestScan keep
        (if keep bh h0 then some (h0, r0) else some (bh, br)) rest).isSome
      by_cases hkeep : keep bh h0
      · rw [if_pos hkeep]
        exact latestScan_isSome keep rest _ (Or.inr rfl)
      · rw [if_neg hkeep]
        exact latestScan_isSome keep rest _ (Or.inr rfl)

theorem latestScan_spec (keep : Nat → Nat → Bool)
    (hk1 : ∀ bh h, bh < h → keep bh h = true)
    (hk2 : ∀ bh h, keep bh h = true → bh ≤ h) :
    ∀ (m : List (Nat × Hash)) (acc : Option (Nat × Hash)) (p : Nat × Hash),
      latestScan keep acc m = some p →
        (p ∈ m ∨ acc = some p) ∧ (∀ q ∈ m, q.1 ≤ p.1) ∧
        (∀ q, acc = some q → q.1 ≤ p.1)
  | [], acc, p, hp => by
    replace hp : acc = some p := hp
    refine ⟨Or.inr hp, by simp, ?_⟩
    intro q hq
    rw [hq] at hp
    injection hp with hp
    rw [hp]
  | (h0, r0) :: rest, acc, p, hp => by
    rcases acc with _ | ⟨bh, br⟩
    · replace hp : latestScan keep (some (h0, r0)) rest = some p := hp
      obtain ⟨hmem, hbound, hacc⟩ := latestScan_spec keep hk1 hk2 rest (some (h0, r0)) p hp
      refine ⟨?_, ?_, ?_⟩
      · rcases hmem with hmem | hmem
        · exact Or.inl (List.mem_cons_of_mem _ hmem)
        · exact Or.inl (by injection hmem with hmem; rw [← hmem]; exact List.mem_cons_self _ _)
      · intro q hq
        rcases List.mem_cons.mp hq with hq | hq
        · rw [hq]; exact hacc (h0, r0) rfl
        · exact hbound q hq
      · intro q hq
        exact Option.noConfusion hq
    · replace hp : latestScan keep
          (if keep bh h0 then some (h0, r0) else some (bh, br)) rest = some p := hp
      by_cases hkeep : keep bh h0
      · rw [if_pos hkeep] at hp
        obtain ⟨hmem, hbound, hacc⟩ := latestScan_spec keep hk1 hk2 rest (some (h0, r0)) p hp
        refine ⟨?_, ?_, ?_⟩
        · rcases hmem with hmem | hmem
          · exact Or.inl (List.mem_cons_of_mem _ hmem)
          · exact Or.inl (by injection hmem with hmem; rw [← hmem]; exact List.mem_cons_self _ _)
        · intro q hq
          rcases List.mem_cons.mp hq with hq | hq
          · rw [hq]; exact hacc (h0, r0) rfl
          · exact hbound q hq
        · intro q hq
          injection hq with hq
          rw [← hq]
          exact Nat.le_trans (hk2 bh h0 hkeep) (hacc (h0, r0) rfl)
      · rw [if_neg hkeep] at hp
        obtain ⟨hmem, hbound, hacc⟩ := latestScan_spec keep hk1 hk2 rest (some (bh, br)) p hp
        have hble : h0 ≤ bh := by
          by_contra hlt
          exact hkeep (hk1 bh h0 (by omega))
        refine ⟨?_, ?_, ?_⟩
        · rcases hmem with hmem | hmem
          · exact Or.inl (List.mem_cons_of_mem _ hmem)
          · exact Or.inr hmem
        · intro q hq
          rcases List.mem_cons.mp hq with hq | hq
          · rw [hq]
            exact Nat.le_trans hble (hacc (bh, br) rfl)
          · exact hbound q hq
        · intro q hq
          exact hacc q hq

theorem mapLookup_eq_none_of_not_mem {κ β : Type} [DecidableEq κ] :
    ∀ (m : List (κ × β)) (k : κ), k ∉ m.map Prod.fst → mapLookup m k = none
  | [], _, _ => rfl
  | (k0, v0) :: rest, k, h => by
    rw [List.map_cons, List.mem_cons] at h
    push_neg at h
    rw [mapLookup, if_neg (fun hk => h.1 hk.symm)]
    exact mapLookup_eq_none_of_not_mem rest k h.2

theorem mapInsert_eq_append_of_not_mem {κ β : Type} [DecidableEq κ] :
    ∀ (m : List (κ × β)) (k : κ) (v : β), k ∉ m.map Prod.fst →
      mapInsert m k v = m ++ [(k, v)]
  | [], _, _, _ => rfl
  | (k0, v0) :: rest, k, v, h => by
    rw [List.map_cons, List.mem_cons] at h
    push_neg at h
    rw [mapInsert, if_neg (fun hk => h.1 hk.symm),
      mapInsert_eq_append_of_not_mem rest k v h.2]
    rfl

theorem sledInsert_perm_of_not_mem {β : Type} :
    ∀ (m : List (Nat × β)) (k : Nat) (v : β), k ∉ m.map Prod.fst →
      (sledInsert m k v).Perm ((k, v) :: m)
  | [], _, _, _ => List.Perm.refl _
  | (k0, v0) :: rest, k, v, h => by
    rw [List.map_cons, List.mem_cons] at h
    push_neg at h
    rw [sledInsert]
    by_cases hlt : k < k0
    · rw [if_pos hlt]
    · rw [if_neg hlt, if_neg h.1]
      exact ((sledInsert_perm_of_not_mem rest k v h.2).cons (k0, v0)).trans
        (List.Perm.swap (k, v) (k0, v0) rest)

theorem putStateRootsMem_state_roots :
    ∀ (ps : List (Nat × Hash)) (st : InMemoryStorage Hash),
      (st.state_roots.map Prod.fst ++ ps.map Prod.fst).Nodup →
      (putStateRootsMem st ps).state_roots = st.state_roots ++ ps
  | [], st, _ => by simp [putStateRootsMem]
  | (h, r) :: ps, st, hnd => by
    have hnotmem : h ∉ st.state_roots.map Prod.fst := by
      rw [List.nodup_append] at hnd
      intro hmem
      exact hnd.2.2 hmem (by simp)
    rw [putStateRootsMem]
    have hstep : ((st.put_state_root h r).state_roots.map Prod.fst
        ++ ps.map Prod.fst).Nodup := by
      show (((mapInsert st.state_roots h r).map Prod.fst) ++ ps.map Prod.fst).Nodup
      rw [mapInsert_eq_append_of_not_mem st.state_roots h r hnotmem]
      simpa using hnd
    rw [putStateRootsMem_state_roots ps (st.put_state_root h r) hstep]
    show mapInsert st.state_roots h r ++ ps = st.state_roots ++ (h, r) :: ps
    rw [mapInsert_eq_append_of_not_mem st.state_roots h r hnotmem]
    simp

theorem putStateRootsSled_state_roots_perm :
    ∀ (ps : List (Nat × Hash)) (st : SledStorage Hash),
      (st.state_roots.map Prod.fst ++ ps.map Prod.fst).Nodup →
      ((putStateRootsSled st ps).state_roots).Perm (st.state_roots ++ ps)
  | [], st, _ => by simp [putStateRootsSled]
  | (h, r) :: ps, st, hnd => by
    have hnotmem : h ∉ st.state_roots.map Prod.fst := by
      rw [List.nodup_append] at hnd
      intro hmem
      exact hnd.2.2 hmem (by simp)
    have hins : ((st.put_state_root h r).state_roots).Perm
        ((h, r) :: st.state_roots) :=
      sledInsert_perm_of_not_mem st.state_roots h r hnotmem
    have hstep : ((st.put_state_root h r).state_roots.map Prod.fst
        ++ ps.map Prod.fst).Nodup := by
      have hkeys : ((st.put_state_root h r).state_roots.map Prod.fst
          ++ ps.map Prod.fst).Perm
          (st.state_roots.map Prod.fst ++ (h :: ps.map Prod.fst)) := by
        refine List.Perm.trans (List.Perm.append_right _ (hins.map Prod.fst)) ?_
        simpa using (@List.perm_middle _ h (st.state_roots.map Prod.fst)
          (ps.map Prod.fst)).symm
      exact hkeys.nodup_iff.mpr (by simpa using hnd)
    rw [putStateRootsSled]
    refine ((putStateRootsSled_state_roots_perm ps (st.put_state_root h r)
      hstep).trans ?_)
    refine (List.Perm.append_right ps hins).trans ?_
    simpa using (@List.perm_middle _ (h, r) st.state_roots ps).symm

/-- C9: after any sequence of `put_state_root` calls with pairwise-distinct heights,
`latest_state_root` returns `NotFound` on the empty sequence, and otherwise both the
in-memory and the sled-backed store return the stored pair of maximum height. -/
theorem latest_state_root_spec (ps : List (Nat × Hash))
    (hnd : (ps.map Prod.fst).Nodup) :
    (ps = [] →
      (putStateRootsMem (InMemoryStorage.default Hash) ps).latest_state_root
          = .error .NotFound ∧
      (putStateRootsSled (SledStorage.open Hash) ps).latest_state_root
          = .error .NotFound) ∧
    (ps ≠ [] → ∃ h r, (h, r) ∈ ps ∧ (∀ q ∈ ps, q.1 ≤ h) ∧
      (putStateRootsMem (InMemoryStorage.default Hash) ps).latest_state_root
          = .ok (h, r) ∧
      (putStateRootsSled (SledStorage.open Hash) ps).latest_state_root
          = .ok (h, r)) := by
  have hmemroots : (putStateRootsMem (InMemoryStorage.default Hash) ps).state_roots
      = ps := by
    have := putStateRootsMem_state_roots ps (InMemoryStorage.default Hash)
      (by simpa [InMemoryStorage.default] using hnd)
    simpa [InMemoryStorage.default] using this
  have hsledroots : ((putStateRootsSled (SledStorage.open Hash) ps).state_roots).Perm
      ps := by
    have := putStateRootsSled_state_roots_perm ps (SledStorage.open Hash)
      (by simpa [SledStorage.open] using hnd)
    simpa [SledStorage.open] using this
  constructor
  · intro hps
    subst hps
    exact ⟨rfl, rfl⟩
  · intro hps
    have hk1mem : ∀ bh h : Nat, bh < h → decide (bh ≤ h) = true := by
      intro bh h hlt; simp; omega
    have hk2mem : ∀ bh h : Nat, decide (bh ≤ h) = true → bh ≤ h := by
      intro bh h hle; simpa using hle
    have hk1sled : ∀ bh h : Nat, bh < h → decide (bh < h) = true := by
      intro bh h hlt; simpa using hlt
    have hk2sled : ∀ bh h : Nat, decide (bh < h) = true → bh ≤ h := by
      intro bh h hlt; simp at hlt; omega
    have hmemne : (putStateRootsMem (InMemoryStorage.default Hash) ps).state_roots
        ≠ [] := by rw [hmemroots]; exact hps
    have hsledne : (putStateRootsSled (SledStorage.open Hash) ps).state_roots
        ≠ [] := by
      intro hnil
      rw [hnil] at hsledroots
      exact hps (List.Perm.eq_nil hsledroots.symm)
    obtain ⟨pm, hpm⟩ := Option.isSome_iff_exists.mp
      (latestScan_isSome (fun bh h => decide (bh ≤ h))
        (putStateRootsMem (InMemoryStorage.default Hash) ps).state_roots none
        (Or.inl hmemne))
    obtain ⟨psld, hpsld⟩ := Option.isSome_iff_exists.mp
      (latestScan_isSome (fun bh h => decide (bh < h))
        (putStateRootsSled (SledStorage.open Hash) ps).state_roots none
        (Or.inl hsledne))
    obtain ⟨hmemm, hmemb, _⟩ := latestScan_spec _ hk1mem hk2mem _ none pm hpm
    obtain ⟨hsldm, hsldb, _⟩ := latestScan_spec _ hk1sled hk2sled _ none psld hpsld
    have hpmmem : pm ∈ ps := by
      rcases hmemm with hm | hm
      · rwa [hmemroots] at hm
      · exact Option.noConfusion hm
    have hpsldmem : psld ∈ ps := by
      rcases hsldm with hm | hm
      · exact hsledroots.mem_iff.mp hm
      · exact Option.noConfusion hm
    have hpmb : ∀ q ∈ ps, q.1 ≤ pm.1 := by
      intro q hq
      exact hmemb q (by rwa [hmemroots])
    have hpsldb : ∀ q ∈ ps, q.1 ≤ psld.1 := by
      intro q hq
      exact hsldb q (hsledroots.mem_iff.mpr hq)
    have hfsteq : pm.1 = psld.1 :=
      Nat.le_antisymm (hpsldb pm hpmmem) (hpmb psld hpsldmem)
    have heq : pm = psld :=
      List.inj_on_of_nodup_map hnd hpmmem hpsldmem hfsteq
    refine ⟨pm.1, pm.2, by simpa using hpmmem, hpmb, ?_, ?_⟩
    · rw [InMemoryStorage.latest_state_root, hpm]
    · rw [SledStorage.latest_state_root, hpsld, ← heq]

end Storage

/-!
Concrete executable instantiation of the abstract parameters, used by the witnesses:
`Nat` for the 32-byte hash values, a simple injective-enough pair combiner for the
Merkle hash, the nonce as transaction id, the height as block id, a take-based batch
function, and a unit storage with an always-succeeding and an always-failing
`put_block`.
-/

def cCombine (a b : Nat) : Nat := 2 * a + 3 * b + 1

def cTx : Transaction := ⟨1, 1, 7, [], []⟩

def cTxIdOf : Transaction → TxId Nat := fun tx => ⟨tx.nonce⟩

def cHeaderId : BlockHeader Nat → BlockId Nat := fun h => ⟨h.height⟩

def cGetBatch (m : List (TxId Nat × Transaction)) (max : Nat) :
    List (TxId Nat × Transaction) := m.take max

def cPutBlockOk : Unit → Block Nat → Unit × Option StorageError :=
  fun _ _ => ((), none)

def cPutBlockFail : Unit → Block Nat → Unit × Option StorageError :=
  fun _ _ => ((), some (StorageError.Backend "io"))

def cMem : List (TxId Nat × Transaction) := [(⟨7⟩, cTx)]

/-- Witness for C1: two steps over a one-transaction mempool commit two blocks; at
index 1 the height is 2 and the parent is the id of the block at index 0. -/
theorem committed_blocks_chain_witness :
    (1 < (runEvents cCombine 0 cGetBatch cPutBlockOk cHeaderId
        (SingleNodeConsensus.new 0 cMem ()) [0, 0]).length) ∧
    (((runEvents cCombine 0 cGetBatch cPutBlockOk cHeaderId
        (SingleNodeConsensus.new 0 cMem ()) [0, 0]).getD 1
        (defaultBlock 0)).header.height = 1 + 1 ∧
    ((runEvents cCombine 0 cGetBatch cPutBlockOk cHeaderId
        (SingleNodeConsensus.new 0 cMem ()) [0, 0]).getD 1
        (defaultBlock 0)).header.parent
      = (if 1 = 0 then none
         else some (cHeaderId (((runEvents cCombine 0 cGetBatch cPutBlockOk cHeaderId
             (SingleNodeConsensus.new 0 cMem ()) [0, 0]).getD 0
             (defaultBlock 0)).header)))) :=
  ⟨by decide, committed_blocks_chain cCombine 0 cGetBatch cPutBlockOk cHeaderId
    cMem () [0, 0] 1 (by decide)⟩

/-- C3 counterexample: with a storage whose `put_block` fails, `step` returns a
`Storage` error, yet the engine state is NOT equal to its value before the call: the
view has advanced from 0 to 1 (the increment precedes the fallible write). -/
theorem step_error_view_advances :
    (step cCombine 0 cGetBatch cPutBlockFail cHeaderId 0
        (SingleNodeConsensus.new 0 cMem ())).2
      = Except.error (ConsensusError.Storage (StorageError.Backend "io")) ∧
    (step cCombine 0 cGetBatch cPutBlockFail cHeaderId 0
        (SingleNodeConsensus.new 0 cMem ())).1.view = 1 ∧
    (SingleNodeConsensus.new 0 cMem () :
        SingleNodeConsensus Nat (List (TxId Nat × Transaction)) Unit).view = 0 :=
  ⟨rfl, rfl, rfl⟩

/-- The engine state a failed step leaves behind in the witness run: only the view
has moved. -/
def cErrState : SingleNodeConsensus Nat (List (TxId Nat × Transaction)) Unit :=
  { view := 1, validator := 0, mempool := cMem, storage := (),
    last_block_id := none, last_height := 0 }

/-- Witness for C3 (amended): at the failing concrete run, tip, mempool are
unchanged, the view is incremented, and the storage is what `put_block` left. -/
theorem step_error_frame_witness :
    step cCombine 0 cGetBatch cPutBlockFail cHeaderId 0
        (SingleNodeConsensus.new 0 cMem ())
      = (cErrState, .error (.Storage (.Backend "io"))) ∧
    (cErrState.last_block_id = (SingleNodeConsensus.new 0 cMem () :
        SingleNodeConsensus Nat (List (TxId Nat × Transaction)) Unit).last_block_id ∧
     cErrState.last_height = (SingleNodeConsensus.new 0 cMem () :
        SingleNodeConsensus Nat (List (TxId Nat × Transaction)) Unit).last_height ∧
     cErrState.mempool = (SingleNodeConsensus.new 0 cMem () :
        SingleNodeConsensus Nat (List (TxId Nat × Transaction)) Unit).mempool ∧
     cErrState.view = (SingleNodeConsensus.new 0 cMem () :
        SingleNodeConsensus Nat (List (TxId Nat × Transaction)) Unit).view + 1 ∧
     ∃ b, build_block cCombine 0 cGetBatch 0
         { SingleNodeConsensus.new 0 cMem () with view := (SingleNodeConsensus.new 0 cMem () : SingleNodeConsensus Nat (List (TxId Nat × Transaction)) Unit).view + 1 }
         = some b ∧
       cErrState.storage = (cPutBlockFail (SingleNodeConsensus.new 0 cMem () :
         SingleNodeConsensus Nat (List (TxId Nat × Transaction)) Unit).storage b).1) :=
  ⟨rfl, step_error_frame cCombine 0 cGetBatch cPutBlockFail cHeaderId 0
    (SingleNodeConsensus.new 0 cMem ()) cErrState
    (.Storage (.Backend "io")) rfl⟩

/-- The event the witness step emits: the committed block carries the Merkle root of
its id list as `tx_root`. -/
def cEvent : FinalityEvent Nat :=
  .BlockCommitted
    { header := { height := 1, parent := none, tx_root := merkle_root cCombine 0 [⟨7⟩], state_root := 0, timestamp_ms := 0, proposer := 0 },
      txs := [⟨7⟩] }
    ⟨1, ⟨1⟩⟩

/-- Witness for C6 at a concrete successful step. -/
theorem committed_tx_root_witness :
    (step cCombine 0 cGetBatch cPutBlockOk cHeaderId 0
        (SingleNodeConsensus.new 0 cMem ())).2 = .ok (some cEvent) ∧
    ∃ b qc, cEvent = .BlockCommitted b qc ∧
      b.header.tx_root = merkle_root cCombine 0 b.txs ∧
      (step cCombine 0 cGetBatch cPutBlockOk cHeaderId 0
          (SingleNodeConsensus.new 0 cMem ())).1.storage
        = (cPutBlockOk (SingleNodeConsensus.new 0 cMem () :
            SingleNodeConsensus Nat (List (TxId Nat × Transaction)) Unit).storage b).1 :=
  ⟨rfl, committed_tx_root cCombine 0 cGetBatch cPutBlockOk cHeaderId 0
    (SingleNodeConsensus.new 0 cMem ()) cEvent rfl⟩

/-- A concrete mempool holding one transaction, capacity 2. -/
def cMempool : SimpleMempool Nat :=
  { config := ⟨2⟩, queue := [⟨5⟩], txs := [(⟨5⟩, ⟨1, 1, 5, [], []⟩)],
    by_namespace := [(1, [⟨5⟩])] }

/-- Witness for C5 at a concrete mempool below capacity. -/
theorem insert_spec_witness :
    cMempool.txs.length ≤ cMempool.config.max_tx ∧
    ((cMempool.insert cTxIdOf cTx = .error .Full ↔
        cMempool.txs.length = cMempool.config.max_tx) ∧
     (cMempool.txs.length < cMempool.config.max_tx →
        (mapLookup cMempool.txs (cTxIdOf cTx)).isSome →
        cMempool.insert cTxIdOf cTx = .ok (cTxIdOf cTx, cMempool)) ∧
     (cMempool.txs.length < cMempool.config.max_tx →
        (mapLookup cMempool.txs (cTxIdOf cTx)).isSome = false →
        ∃ mp', cMempool.insert cTxIdOf cTx = .ok (cTxIdOf cTx, mp') ∧
          mp'.queue = cMempool.queue ++ [cTxIdOf cTx] ∧
          mapLookup mp'.txs (cTxIdOf cTx) = some cTx ∧
          mp'.len = cMempool.len + 1 ∧
          mapLookup mp'.by_namespace cTx.«namespace»
            = some ((mapLookup cMempool.by_namespace cTx.«namespace»).getD []
                ++ [cTxIdOf cTx]))) :=
  ⟨by decide, insert_spec cTxIdOf cMempool cTx (by decide)⟩

/-- Witness for C9 at the specification's own scenario: heights 1, 5, 3. -/
theorem latest_state_root_spec_witness :
    (([(1, (11 : Nat)), (5, 55), (3, 33)].map Prod.fst).Nodup) ∧
    (([(1, (11 : Nat)), (5, 55), (3, 33)] = [] →
      (putStateRootsMem (InMemoryStorage.default Nat)
          [(1, 11), (5, 55), (3, 33)]).latest_state_root = .error .NotFound ∧
      (putStateRootsSled (SledStorage.open Nat)
          [(1, 11), (5, 55), (3, 33)]).latest_state_root = .error .NotFound) ∧
    ([(1, (11 : Nat)), (5, 55), (3, 33)] ≠ [] →
      ∃ h r, (h, r) ∈ [(1, (11 : Nat)), (5, 55), (3, 33)] ∧
        (∀ q ∈ [(1, (11 : Nat)), (5, 55), (3, 33)], q.1 ≤ h) ∧
        (putStateRootsMem (InMemoryStorage.default Nat)
            [(1, 11), (5, 55), (3, 33)]).latest_state_root = .ok (h, r) ∧
        (putStateRootsSled (SledStorage.open Nat)
            [(1, 11), (5, 55), (3, 33)]).latest_state_root = .ok (h, r))) :=
  ⟨by decide, latest_state_root_spec [(1, 11), (5, 55), (3, 33)] (by decide)⟩
